import Mathlib

/-!
Shallow embedding of `src/scripts/process_data.py` (dna-web repository).

Strings are modelled as `List Char` (`Str`).  Python string operations used by
the script (`in`, `lower`, `title`, `split`, `join`, `replace`) are translated
as executable Lean functions over `Str`, restricted to ASCII case mapping,
which covers every literal the script manipulates.
-/

namespace DnaWeb

abbrev Str := List Char

/-- ASCII lower-casing of one character (model of Python `str.lower` per char). -/
def toLowerA (c : Char) : Char :=
  if 'A' ≤ c ∧ c ≤ 'Z' then Char.ofNat (c.toNat + 32) else c

/-- ASCII upper-casing of one character. -/
def toUpperA (c : Char) : Char :=
  if 'a' ≤ c ∧ c ≤ 'z' then Char.ofNat (c.toNat - 32) else c

/-- ASCII cased (alphabetic) test, the notion `str.title` keys on. -/
def isAsciiAlpha (c : Char) : Bool :=
  decide (('a' ≤ c ∧ c ≤ 'z') ∨ ('A' ≤ c ∧ c ≤ 'Z'))

/-- Model of Python `str.lower`. -/
def lowerStr (s : Str) : Str := s.map toLowerA

/-- Worker for `titleStr`; the boolean records whether the previous character
was cased, exactly Python's `str.title` rule. -/
def titleAux : Bool → Str → Str
  | _, [] => []
  | prevCased, c :: rest =>
    if isAsciiAlpha c then
      (if prevCased then toLowerA c else toUpperA c) :: titleAux true rest
    else
      c :: titleAux false rest

/-- Model of Python `str.title`. -/
def titleStr (s : Str) : Str := titleAux false s

/-- `leads pat s` holds when `s` starts with `pat`. -/
def leads : Str → Str → Bool
  | [], _ => true
  | _ :: _, [] => false
  | p :: ps, c :: cs => (p == c) && leads ps cs

/-- Model of Python substring containment `pat in s`. -/
def occursIn (pat : Str) : Str → Bool
  | [] => leads pat []
  | c :: t => leads pat (c :: t) || occursIn pat t

/-- Model of Python single-character containment `c in s`. -/
def hasChar (c : Char) (s : Str) : Bool := s.any (fun a => a == c)

/-- Model of Python `s.split(c)` for a one-character separator. -/
def splitOnC (c : Char) : Str → List Str
  | [] => [[]]
  | a :: t =>
    if a = c then [] :: splitOnC c t
    else
      match splitOnC c t with
      | [] => [[a]]
      | h :: r => (a :: h) :: r

/-- Model of Python `sep.join(parts)`. -/
def joinWith (sep : Str) : List Str → Str
  | [] => []
  | [x] => x
  | x :: xs => x ++ sep ++ joinWith sep xs

/-- Worker for `removeAll`, structurally recursive on a fuel that starts as
the input length (every step consumes at least one character, so the fuel is
exact and the zero-fuel case is unreachable for that choice). -/
def removeAllFuel (pat : Str) : Nat → Str → Str
  | _, [] => []
  | 0, s => s
  | n + 1, c :: rest =>
    if pat ≠ [] ∧ leads pat (c :: rest) = true then
      removeAllFuel pat n ((c :: rest).drop pat.length)
    else
      c :: removeAllFuel pat n rest

/-- Model of Python `s.replace(pat, '')` (all occurrences, left to right).
For the empty pattern it returns `s`, matching `s.replace('', '')`. -/
def removeAll (pat : Str) (s : Str) : Str := removeAllFuel pat s.length s

/-- ASCII digit test (model of the regex class `\d`). -/
def isDigitA (c : Char) : Bool := decide ('0' ≤ c ∧ c ≤ '9')

/-- The regex letter class `[Bb]` from `re.IGNORECASE` matching of `B`. -/
def isBChar (c : Char) : Bool := c == 'B' || c == 'b'

/-- Attempt of the regex `(\d+(\.\d+)?)B` (IGNORECASE) anchored at the head of
the input, returning group 1 on success.  Backtracking of the Python engine
collapses to maximal munch here: shortening either `\d+` leaves a digit as the
next character, which can match neither `.` nor `B`, and when the optional
group was entered the character after the first digit run is `.`, which is not
`B` either; so only the maximal-munch attempt below can succeed. -/
def matchAt (s : Str) : Option Str :=
  let ds := s.takeWhile isDigitA
  if ds.isEmpty then none
  else
    match s.dropWhile isDigitA with
    | [] => none
    | c :: r2 =>
      if c = '.' then
        let es := r2.takeWhile isDigitA
        if es.isEmpty then none
        else
          match r2.dropWhile isDigitA with
          | [] => none
          | b :: _ => if isBChar b then some (ds ++ '.' :: es) else none
      else if isBChar c then some ds else none

/-- Model of `re.search` for the pattern above: try each start position left
to right. -/
def searchB : Str → Option Str
  | [] => none
  | c :: t =>
    match matchAt (c :: t) with
    | some g => some g
    | none => searchB t

/-- Translation of `extract_params` (process_data.py lines 147-152). -/
def extract_params (s : Str) : Str :=
  match searchB s with
  | some g => g ++ ('B' :: [])
  | none => ("Unknown".toList)

/-- First stage of the name heuristics (process_data.py lines 67-96): the
underscore split, else the keyword chain.  Returns `(org, name)`. -/
def orgBranch (model_id : Str) : Str × Str :=
  let clean_id := lowerStr model_id
  if hasChar '_' model_id then
    let parts := splitOnC '_' model_id
    (parts.headD [], joinWith ('_' :: []) (parts.drop 1))
  else
    if occursIn ("meta-llama".toList) clean_id then
      (("Meta Llama".toList),
        removeAll ("meta-llama-".toList) (removeAll ("fine-tuned-".toList) model_id))
    else if occursIn ("qwen".toList) clean_id then (("Qwen".toList), model_id)
    else if occursIn ("mistral".toList) clean_id then (("Mistral".toList), model_id)
    else if occursIn ("01-ai".toList) clean_id then (("01-ai".toList), model_id)
    else if occursIn ("google".toList) clean_id then (("Google".toList), model_id)
    else if occursIn ("microsoft".toList) clean_id then (("Microsoft".toList), model_id)
    else (("Others".toList), model_id)

/-- Placeholder fallback (lines 98-101): when the organization is the literal
`"Unknown"` or `"Others"` and the raw name contains a hyphen, re-derive it as
the token before the first hyphen. -/
def orgFallback (org : Str) (model_id : Str) : Str :=
  if (org = ("Unknown".toList) ∨ org = ("Others".toList)) ∧ hasChar '-' model_id = true then
    (splitOnC '-' model_id).headD []
  else org

/-- Normalization (line 104): `org.replace('-', ' ').title()`. -/
def orgNormalize (org : Str) : Str :=
  titleStr (org.map (fun c => if c = '-' then ' ' else c))

/-- Canonicalization overrides (lines 106-109), three sequential `if`s. -/
def orgOverride (org : Str) : Str :=
  let o1 := if occursIn ("Meta Llama".toList) org || occursIn ("Llama".toList) org then
      ("Meta Llama".toList) else org
  let o2 := if occursIn ("01 Ai".toList) o1 then ("01-ai".toList) else o1
  if occursIn ("Qwen".toList) o2 then ("Qwen".toList) else o2

/-- The full organization pipeline of `collect_signatures`. -/
def resolveOrg (model_id : Str) : Str :=
  orgOverride (orgNormalize (orgFallback (orgBranch model_id).1 model_id))

/-- Family tagging (lines 113-123) over the lower-cased composed id. -/
def familyOf (fid : Str) : Str :=
  let fl := lowerStr fid
  if occursIn ("llama".toList) fl then ("Llama".toList)
  else if occursIn ("qwen".toList) fl then ("Qwen".toList)
  else if occursIn ("mistral".toList) fl then ("Mistral".toList)
  else if occursIn ("gemma".toList) fl then ("Gemma".toList)
  else if occursIn ("phi".toList) fl then ("Phi".toList)
  else if occursIn ("yi".toList) fl then ("Yi".toList)
  else if occursIn ("falcon".toList) fl then ("Falcon".toList)
  else if occursIn ("deepseek".toList) fl then ("DeepSeek".toList)
  else ("Unknown".toList)

/-- The resolved identity of one raw model name (spec §4.1 `ModelIdentity`). -/
structure Identity where
  organization : Str
  displayName : Str
  family : Str
  parameterSize : Str
  isInstructTuned : Bool
deriving DecidableEq, Repr

/-- Identity resolution as performed inline in `collect_signatures`
(lines 67-133) for one `model_id`. -/
def resolve (model_id : Str) : Identity :=
  let org := resolveOrg model_id
  let name := (orgBranch model_id).2
  let fid := org ++ '/' :: name
  let fl := lowerStr fid
  { organization := org
    displayName := name
    family := familyOf fid
    parameterSize := extract_params model_id
    isInstructTuned := occursIn ("instruct".toList) fl || occursIn ("chat".toList) fl }

/-- The record assembled for one signature file (lines 125-133). -/
structure Record where
  id : Str
  name : Str
  organization : Str
  family : Str
  signature : List Rat
  parameters : Str
  isInstruct : Bool
deriving DecidableEq, Repr

/-- Record construction from a raw model name and its signature vector. -/
def mkRecord (model_id : Str) (sig : List Rat) : Record :=
  let idn := resolve model_id
  { id := idn.organization ++ '/' :: idn.displayName
    name := model_id
    organization := idn.organization
    family := idn.family
    signature := sig
    parameters := idn.parameterSize
    isInstruct := idn.isInstructTuned }

/-- Quality signal (line 59): `1` when the lower-cased source path contains
`"embed"`, else `0`. -/
def isEmbedScore (path : Str) : Nat :=
  if occursIn ("embed".toList) (lowerStr path) then 1 else 0

/-- One admission into the `best_signature` table (lines 135-138): store when
the key is unseen, replace only when the new score is strictly greater. -/
def dedupStep (tbl : Str → Option (Nat × Record)) (k : Str) (c : Nat × Record) :
    Str → Option (Nat × Record) :=
  match tbl k with
  | none => fun q => if q = k then some c else tbl q
  | some p =>
    if p.1 < c.1 then (fun q => if q = k then some c else tbl q) else tbl

/-- The output document of `main` (metadata count plus records with their 2-D
coordinates). -/
structure OutputDoc where
  count : Nat
  models : List (Record × (Rat × Rat))
deriving Repr

/-- The tail of `main` (lines 166-209) after `collect_signatures` returned:
abort with exit code 1 when fewer than 2 records were retained, otherwise call
the embedding stage on the signature matrix and assemble the document.  The
embedding stage is the external collaborator and is passed as a function. -/
def runPipeline (embed : List (List Rat) → List (Rat × Rat))
    (records : List Record) : Except Nat OutputDoc :=
  if records.length < 2 then Except.error 1
  else
    let coords := embed (records.map (fun r => r.signature))
    Except.ok { count := records.length, models := records.zip coords }

/-- Whether some digit of `s` is immediately followed by the letter `B` or
`b`; this is exactly when the regex of `extract_params` can match. -/
def hasDigitB : Str → Bool
  | a :: b :: t => (isDigitA a && isBChar b) || hasDigitB (b :: t)
  | _ => false

/-- A numeric token in the sense of the specification: one or more digits,
optionally followed by a decimal point and one or more further digits. -/
def numTok (t : Str) : Bool :=
  let r := t.dropWhile isDigitA
  !(t.takeWhile isDigitA).isEmpty &&
    (r.isEmpty ||
      ((r.headD ' ' == '.') && !(r.drop 1).isEmpty && (r.drop 1).all isDigitA))

/-- `specTokAt s i t`: the numeric token `t` occurs in `s` at position `i` and
is immediately followed by the letter `B` or `b` (the specification's notion
of a capturable parameter-count token). -/
def specTokAt (s : Str) (i : Nat) (t : Str) : Prop :=
  numTok t = true ∧ ∃ b rest, isBChar b = true ∧ s.drop i = t ++ b :: rest

/-- A sample record, used to instantiate the deduplication statements. -/
def recA : Record :=
  { id := ("O/a".toList), name := ("a".toList), organization := ("O".toList)
    family := ("Unknown".toList), signature := []
    parameters := ("Unknown".toList), isInstruct := false }

/-- A second sample record with a different raw name. -/
def recB : Record := { recA with name := ("b".toList) }

/-- A sample one-entry deduplication table holding `recA` with score 0. -/
def tblA : Str → Option (Nat × Record) :=
  fun q => if q = ("m".toList) then some (0, recA) else none

/-! ### Helper lemmas about the string primitives -/

theorem splitOnC_ne_nil (c : Char) (s : Str) : splitOnC c s ≠ [] := by
  induction s with
  | nil => simp [splitOnC]
  | cons a t ih =>
    simp only [splitOnC]
    split_ifs
    · simp
    · cases h : splitOnC c t with
      | nil => simp
      | cons x r => simp

theorem splitOnC_headD (c : Char) (s : Str) :
    (splitOnC c s).headD [] = s.takeWhile (fun a => a != c) := by
  induction s with
  | nil => rfl
  | cons a t ih =>
    by_cases h : a = c
    · subst h
      simp [splitOnC, List.takeWhile_cons]
    · simp only [splitOnC, if_neg h]
      cases hs : splitOnC c t with
      | nil => exact absurd hs (splitOnC_ne_nil c t)
      | cons x r =>
        rw [hs] at ih
        simp only [List.headD_cons] at ih ⊢
        simp [List.takeWhile_cons, h, ← ih]

theorem joinWith_splitOnC (c : Char) (s : Str) :
    joinWith (c :: []) (splitOnC c s) = s := by
  induction s with
  | nil => rfl
  | cons a t ih =>
    by_cases h : a = c
    · subst h
      simp only [splitOnC, if_pos rfl]
      cases hs : splitOnC a t with
      | nil => exact absurd hs (splitOnC_ne_nil a t)
      | cons x r =>
        rw [hs] at ih
        show ([] : Str) ++ (a :: []) ++ joinWith (a :: []) (x :: r) = a :: t
        rw [← ih]
        simp
    · simp only [splitOnC, if_neg h]
      cases hs : splitOnC c t with
      | nil => exact absurd hs (splitOnC_ne_nil c t)
      | cons x r =>
        rw [hs] at ih
        cases r with
        | nil =>
          show a :: x = a :: t
          simpa [joinWith] using ih
        | cons r0 rs =>
          show (a :: x) ++ (c :: []) ++ joinWith (c :: []) (r0 :: rs) = a :: t
          rw [← ih]
          simp [joinWith]

theorem splitOnC_tail_join (c : Char) (s : Str) :
    joinWith (c :: []) ((splitOnC c s).drop 1)
      = (s.dropWhile (fun a => a != c)).drop 1 := by
  induction s with
  | nil => rfl
  | cons a t ih =>
    by_cases h : a = c
    · subst h
      simp only [splitOnC, if_pos rfl, List.drop_succ_cons, List.drop_zero]
      simp [joinWith_splitOnC, List.dropWhile_cons]
    · simp only [splitOnC, if_neg h]
      cases hs : splitOnC c t with
      | nil => exact absurd hs (splitOnC_ne_nil c t)
      | cons x r =>
        rw [hs] at ih
        simp only [List.drop_succ_cons, List.drop_zero] at ih ⊢
        rw [List.dropWhile_cons]
        simp only [bne_iff_ne, ne_eq, h, not_false_eq_true, if_true]
        exact ih

theorem titleAux_length (s : Str) : ∀ b : Bool, (titleAux b s).length = s.length := by
  induction s with
  | nil => intro b; rfl
  | cons a t ih =>
    intro b
    simp only [titleAux]
    split_ifs <;> simp [ih]

/-! ### Non-emptiness of the resolved organization (for the amended C4) -/

theorem orgNormalize_ne_nil (o : Str) (h : o ≠ []) : orgNormalize o ≠ [] := by
  intro hc
  apply h
  have hl : (orgNormalize o).length = o.length := by
    simp [orgNormalize, titleStr, titleAux_length]
  rw [hc] at hl
  exact List.length_eq_zero.mp hl.symm

theorem orgOverride_ne_nil (o : Str) (h : o ≠ []) : orgOverride o ≠ [] := by
  simp only [orgOverride]
  split_ifs <;> first | decide | exact h

theorem orgFallback_ne_nil (o : Str) (s : Str) (ho : o ≠ [])
    (h2 : s.head? ≠ some '-') : orgFallback o s ≠ [] := by
  simp only [orgFallback]
  split_ifs with hcond
  · rw [splitOnC_headD]
    cases s with
    | nil => simp [hasChar] at hcond
    | cons a t =>
      have ha : a ≠ '-' := by
        intro he
        subst he
        simp at h2
      simp [List.takeWhile_cons, ha]
  · exact ho

theorem orgBranch_fst_ne_nil (s : Str) (h1 : s.head? ≠ some '_') :
    (orgBranch s).1 ≠ [] := by
  simp only [orgBranch]
  split_ifs with hu
  · rw [splitOnC_headD]
    cases s with
    | nil => simp [hasChar] at hu
    | cons a t =>
      have ha : a ≠ '_' := by
        intro he
        subst he
        simp at h1
      simp [List.takeWhile_cons, ha]
  all_goals dsimp only
  all_goals decide

/-! ### Digit and B-letter facts (for the parameter-extraction regex) -/

theorem isB_not_digit {b : Char} (h : isBChar b = true) : isDigitA b = false := by
  simp only [isBChar, Bool.or_eq_true, beq_iff_eq] at h
  rcases h with h | h <;> subst h <;> decide

theorem isB_ne_dot {b : Char} (h : isBChar b = true) : b ≠ '.' := by
  simp only [isBChar, Bool.or_eq_true, beq_iff_eq] at h
  rcases h with h | h <;> subst h <;> decide

theorem all_takeWhile (p : Char → Bool) (l : Str) :
    ∀ x ∈ l.takeWhile p, p x = true := by
  induction l with
  | nil => simp
  | cons a t ih =>
    by_cases h : p a = true
    · intro x hx
      rw [List.takeWhile_cons_of_pos h] at hx
      rcases List.mem_cons.mp hx with rfl | hx
      · exact h
      · exact ih x hx
    · intro x hx
      rw [List.takeWhile_cons_of_neg h] at hx
      simp at hx

theorem takeWhile_all_append (p : Char → Bool) (xs ys : Str)
    (h : ∀ x ∈ xs, p x = true) :
    (xs ++ ys).takeWhile p = xs ++ ys.takeWhile p := by
  induction xs with
  | nil => simp
  | cons a t ih =>
    have ha := h a (List.mem_cons_self a t)
    simp only [List.cons_append, List.takeWhile_cons_of_pos ha]
    rw [ih (fun x hx => h x (List.mem_cons_of_mem a hx))]

theorem dropWhile_all_append (p : Char → Bool) (xs ys : Str)
    (h : ∀ x ∈ xs, p x = true) :
    (xs ++ ys).dropWhile p = ys.dropWhile p := by
  induction xs with
  | nil => simp
  | cons a t ih =>
    have ha := h a (List.mem_cons_self a t)
    simp only [List.cons_append, List.dropWhile_cons, ha, if_true]
    exact ih (fun x hx => h x (List.mem_cons_of_mem a hx))

theorem dropWhile_head_false (p : Char → Bool) :
    ∀ (l : Str) (c : Char) (r : Str), l.dropWhile p = c :: r → p c = false := by
  intro l
  induction l with
  | nil => intro c r h; simp at h
  | cons a t ih =>
    intro c r h
    by_cases ha : p a = true
    · rw [List.dropWhile_cons, if_pos ha] at h
      exact ih c r h
    · rw [List.dropWhile_cons, if_neg ha] at h
      obtain ⟨rfl, rfl⟩ : a = c ∧ t = r := by
        exact ⟨(List.cons.injEq a t c r ▸ h).1, (List.cons.injEq a t c r ▸ h).2⟩
      simpa using ha

/-! ### Characterization of the anchored regex attempt -/

theorem matchAt_some_iff (w g : Str) :
    matchAt w = some g ↔
      (numTok g = true ∧ ∃ b rest, isBChar b = true ∧ w = g ++ b :: rest) := by
  constructor
  · intro h
    simp only [matchAt] at h
    split at h
    · exact absurd h (by simp)
    · rename_i hds
      split at h
      · exact absurd h (by simp)
      · rename_i c r2 hdrop
        split at h
        · rename_i hc
          subst hc
          split at h
          · exact absurd h (by simp)
          · rename_i hes
            split at h
            · exact absurd h (by simp)
            · rename_i b tail hdrop2
              split at h
              · rename_i hb
                have hg : g = w.takeWhile isDigitA ++ '.' :: r2.takeWhile isDigitA :=
                  (Option.some.inj h).symm
                have hall_ds := all_takeWhile isDigitA w
                have hall_es := all_takeWhile isDigitA r2
                have hds' : (w.takeWhile isDigitA).isEmpty = false := by
                  simpa using hds
                have hes' : (r2.takeWhile isDigitA).isEmpty = false := by
                  simpa using hes
                subst hg
                refine ⟨?_, b, tail, hb, ?_⟩
                · have h1 : ((w.takeWhile isDigitA ++ '.' :: r2.takeWhile isDigitA).takeWhile
                      isDigitA) = w.takeWhile isDigitA := by
                    rw [takeWhile_all_append _ _ _ hall_ds,
                      List.takeWhile_cons_of_neg (by decide), List.append_nil]
                  have h2 : ((w.takeWhile isDigitA ++ '.' :: r2.takeWhile isDigitA).dropWhile
                      isDigitA) = '.' :: r2.takeWhile isDigitA := by
                    rw [dropWhile_all_append _ _ _ hall_ds, List.dropWhile_cons,
                      if_neg (by decide)]
                  simp only [numTok, h1, h2, List.isEmpty_cons, List.headD_cons,
                    List.drop_succ_cons, List.drop_zero]
                  simp [hds', hes', List.all_eq_true.mpr hall_es]
                · have hr2 : r2 = r2.takeWhile isDigitA ++ b :: tail := by
                    conv_lhs => rw [← List.takeWhile_append_dropWhile isDigitA r2]
                    rw [hdrop2]
                  conv_lhs => rw [← List.takeWhile_append_dropWhile isDigitA w]
                  rw [hdrop]
                  conv_lhs => rw [hr2]
                  simp
              · exact absurd h (by simp)
        · rename_i hc
          split at h
          · rename_i hb
            have hg : g = w.takeWhile isDigitA := (Option.some.inj h).symm
            have hall_ds := all_takeWhile isDigitA w
            have hds' : (w.takeWhile isDigitA).isEmpty = false := by
              simpa using hds
            subst hg
            refine ⟨?_, c, r2, hb, ?_⟩
            · have h1 : ((w.takeWhile isDigitA).takeWhile isDigitA)
                  = w.takeWhile isDigitA := by
                have := takeWhile_all_append isDigitA (w.takeWhile isDigitA) [] hall_ds
                simpa using this
              have h2 : ((w.takeWhile isDigitA).dropWhile isDigitA) = [] := by
                have := dropWhile_all_append isDigitA (w.takeWhile isDigitA) [] hall_ds
                simpa using this
              simp [numTok, h1, h2, hds']
            · conv_lhs => rw [← List.takeWhile_append_dropWhile isDigitA w]
              rw [hdrop]
          · exact absurd h (by simp)
  · rintro ⟨hnum, b, rest, hb, rfl⟩
    simp only [numTok, Bool.and_eq_true, Bool.or_eq_true, Bool.not_eq_true'] at hnum
    obtain ⟨h1, h2⟩ := hnum
    have hall_d := all_takeWhile isDigitA g
    have hbd : isDigitA b = false := isB_not_digit hb
    rcases h2 with h2 | h2
    · have hge : g.dropWhile isDigitA = [] := by simpa using h2
      have hg2 : g.takeWhile isDigitA = g := by
        conv_rhs => rw [← List.takeWhile_append_dropWhile isDigitA g]
        rw [hge, List.append_nil]
      have hgall : ∀ x ∈ g, isDigitA x = true := by
        intro x hx
        rw [← hg2] at hx
        exact hall_d x hx
      have ht : (g ++ b :: rest).takeWhile isDigitA = g := by
        rw [takeWhile_all_append _ _ _ hgall,
          List.takeWhile_cons_of_neg (by simp [hbd]), List.append_nil]
      have hd : (g ++ b :: rest).dropWhile isDigitA = b :: rest := by
        rw [dropWhile_all_append _ _ _ hgall, List.dropWhile_cons, if_neg (by simp [hbd])]
      have hgne : g.isEmpty = false := by
        rw [hg2] at h1
        exact h1
      simp only [matchAt, ht, hd, hgne, Bool.false_eq_true, if_false]
      rw [if_neg (isB_ne_dot hb), if_pos hb]
    · obtain ⟨⟨hhead, hne2⟩, hall2⟩ := h2
      cases hr : g.dropWhile isDigitA with
      | nil =>
        rw [hr] at hhead
        simp at hhead
      | cons c r2 =>
        rw [hr] at hhead hne2 hall2
        have hc : c = '.' := by simpa using hhead
        subst hc
        simp only [List.drop_succ_cons, List.drop_zero] at hne2 hall2
        have hall_r2 : ∀ x ∈ r2, isDigitA x = true := List.all_eq_true.mp hall2
        have hg : g = g.takeWhile isDigitA ++ '.' :: r2 := by
          conv_lhs => rw [← List.takeWhile_append_dropWhile isDigitA g]
          rw [hr]
        have hw : g ++ b :: rest
            = g.takeWhile isDigitA ++ '.' :: (r2 ++ b :: rest) := by
          conv_lhs => rw [hg]
          simp
        rw [hw]
        have hta : ((g.takeWhile isDigitA ++ '.' :: (r2 ++ b :: rest)).takeWhile isDigitA)
            = g.takeWhile isDigitA := by
          rw [takeWhile_all_append _ _ _ hall_d,
            List.takeWhile_cons_of_neg (by decide), List.append_nil]
        have hda : ((g.takeWhile isDigitA ++ '.' :: (r2 ++ b :: rest)).dropWhile isDigitA)
            = '.' :: (r2 ++ b :: rest) := by
          rw [dropWhile_all_append _ _ _ hall_d, List.dropWhile_cons, if_neg (by decide)]
        have hta2 : ((r2 ++ b :: rest).takeWhile isDigitA) = r2 := by
          rw [takeWhile_all_append _ _ _ hall_r2,
            List.takeWhile_cons_of_neg (by simp [hbd]), List.append_nil]
        have hda2 : ((r2 ++ b :: rest).dropWhile isDigitA) = b :: rest := by
          rw [dropWhile_all_append _ _ _ hall_r2, List.dropWhile_cons,
            if_neg (by simp [hbd])]
        have hne2' : r2.isEmpty = false := hne2
        simp only [matchAt, hta, hda, hta2, hda2, h1, Bool.false_eq_true, if_false,
          if_pos rfl, hne2', hb, if_true]
        rw [← hg]

/-! ### The left-to-right search and its relation to `hasDigitB` -/

theorem hasDigitB_cons_of_tail (a : Char) (t : Str) (h : hasDigitB t = true) :
    hasDigitB (a :: t) = true := by
  cases t with
  | nil => simp [hasDigitB] at h
  | cons x r => simp [hasDigitB, h]

theorem hasDigitB_append (p : Str) (d b : Char) (q : Str)
    (hd : isDigitA d = true) (hb : isBChar b = true) :
    hasDigitB (p ++ d :: b :: q) = true := by
  induction p with
  | nil => simp [hasDigitB, hd, hb]
  | cons a t ih =>
    rw [List.cons_append]
    exact hasDigitB_cons_of_tail _ _ ih

theorem numTok_ends_digit (g : Str) (h : numTok g = true) :
    ∃ g' d, g = g' ++ (d :: []) ∧ isDigitA d = true := by
  simp only [numTok, Bool.and_eq_true, Bool.or_eq_true, Bool.not_eq_true'] at h
  obtain ⟨h1, h2⟩ := h
  rcases h2 with h2 | h2
  · have hge : g.dropWhile isDigitA = [] := by simpa using h2
    have hg2 : g.takeWhile isDigitA = g := by
      conv_rhs => rw [← List.takeWhile_append_dropWhile isDigitA g]
      rw [hge, List.append_nil]
    have hgne : g ≠ [] := by
      intro hc
      rw [hc] at hg2 h1
      simp at h1
    have hgall : ∀ x ∈ g, isDigitA x = true := by
      intro x hx
      rw [← hg2] at hx
      exact all_takeWhile isDigitA g x hx
    refine ⟨g.dropLast, g.getLast hgne, ?_, hgall _ (List.getLast_mem hgne)⟩
    rw [List.dropLast_append_getLast hgne]
  · obtain ⟨⟨hhead, hne2⟩, hall2⟩ := h2
    cases hr : g.dropWhile isDigitA with
    | nil =>
      rw [hr] at hhead
      simp at hhead
    | cons c r2 =>
      rw [hr] at hhead hne2 hall2
      have hc : c = '.' := by simpa using hhead
      subst hc
      simp only [List.drop_succ_cons, List.drop_zero] at hne2 hall2
      have hr2ne : r2 ≠ [] := by
        intro hc2
        rw [hc2] at hne2
        simp at hne2
      have hall_r2 : ∀ x ∈ r2, isDigitA x = true := List.all_eq_true.mp hall2
      have hg : g = g.takeWhile isDigitA ++ '.' :: r2 := by
        conv_lhs => rw [← List.takeWhile_append_dropWhile isDigitA g]
        rw [hr]
      refine ⟨g.takeWhile isDigitA ++ '.' :: r2.dropLast, r2.getLast hr2ne, ?_,
        hall_r2 _ (List.getLast_mem hr2ne)⟩
      conv_lhs => rw [hg]
      conv_lhs => rw [← List.dropLast_append_getLast hr2ne]
      simp

theorem searchB_ne_none_of_hasDigitB (s : Str) (h : hasDigitB s = true) :
    searchB s ≠ none := by
  induction s with
  | nil => simp [hasDigitB] at h
  | cons a t ih =>
    cases t with
    | nil => simp [hasDigitB] at h
    | cons x r =>
      rw [show hasDigitB (a :: x :: r)
          = ((isDigitA a && isBChar x) || hasDigitB (x :: r)) from rfl,
        Bool.or_eq_true, Bool.and_eq_true] at h
      rcases h with ⟨ha, hx⟩ | h2
      · have hxd : isDigitA x = false := isB_not_digit hx
        have hxdot : x ≠ '.' := isB_ne_dot hx
        have hm : matchAt (a :: x :: r) = some (a :: []) := by
          simp only [matchAt, List.takeWhile_cons, List.dropWhile_cons, ha, hxd,
            Bool.false_eq_true, if_true, if_false]
          rw [if_neg (by simp), if_neg hxdot, if_pos hx]
        simp [searchB, hm]
      · have ht := ih h2
        cases hm : matchAt (a :: x :: r) with
        | some g => simp [searchB, hm]
        | none =>
          simp only [searchB, hm]
          exact ht

theorem searchB_some_idx (s : Str) :
    ∀ g, searchB s = some g →
      ∃ i, matchAt (s.drop i) = some g ∧ ∀ j, j < i → matchAt (s.drop j) = none := by
  induction s with
  | nil => intro g h; simp [searchB] at h
  | cons c t ih =>
    intro g h
    cases hm : matchAt (c :: t) with
    | some g' =>
      rw [searchB, hm] at h
      refine ⟨0, ?_, ?_⟩
      · simpa [List.drop_zero] using hm.trans h
      · intro j hj
        omega
    | none =>
      rw [searchB, hm] at h
      obtain ⟨i, h1, h2⟩ := ih g h
      refine ⟨i + 1, by simpa [List.drop_succ_cons] using h1, ?_⟩
      intro j hj
      cases j with
      | zero => simpa [List.drop_zero] using hm
      | succ j' =>
        rw [List.drop_succ_cons]
        exact h2 j' (by omega)

theorem hasDigitB_of_searchB_some (s : Str) (g : Str) (h : searchB s = some g) :
    hasDigitB s = true := by
  obtain ⟨i, h1, _⟩ := searchB_some_idx s g h
  obtain ⟨hnum, b, rest, hb, hdrop⟩ := (matchAt_some_iff (s.drop i) g).mp h1
  obtain ⟨g', d, rfl, hd⟩ := numTok_ends_digit g hnum
  have hs : s = s.take i ++ ((g' ++ (d :: [])) ++ b :: rest) := by
    rw [← hdrop, List.take_append_drop]
  rw [hs]
  have : s.take i ++ ((g' ++ (d :: [])) ++ b :: rest)
      = (s.take i ++ g') ++ d :: b :: rest := by
    simp
  rw [this]
  exact hasDigitB_append _ _ _ _ hd hb

theorem searchB_none_iff (s : Str) : searchB s = none ↔ hasDigitB s = false := by
  constructor
  · intro h
    by_contra hc
    have : hasDigitB s = true := by
      cases hv : hasDigitB s
      · exact absurd hv hc
      · rfl
    exact searchB_ne_none_of_hasDigitB s this h
  · intro h
    cases hm : searchB s with
    | none => rfl
    | some g =>
      rw [hasDigitB_of_searchB_some s g hm] at h
      exact absurd h (by simp)

/-! ### Behaviour of one deduplication step -/

theorem dedupStep_none (tbl : Str → Option (Nat × Record)) (k : Str)
    (c : Nat × Record) (h : tbl k = none) : dedupStep tbl k c k = some c := by
  unfold dedupStep
  rw [h]
  simp

theorem dedupStep_some_lt (tbl : Str → Option (Nat × Record)) (k : Str)
    (p c : Nat × Record) (h : tbl k = some p) (hlt : p.1 < c.1) :
    dedupStep tbl k c k = some c := by
  unfold dedupStep
  rw [h]
  simp [hlt]

theorem dedupStep_some_ge (tbl : Str → Option (Nat × Record)) (k : Str)
    (p c : Nat × Record) (h : tbl k = some p) (hge : ¬ p.1 < c.1) :
    dedupStep tbl k c k = some p := by
  unfold dedupStep
  rw [h]
  simp [hge, h]

/-! ### Claim theorems -/

/-- Claim C1: for a key with exactly two admitted candidates, one from a path
containing "embed" (case-insensitively) and one from a path that does not,
the retained entry after both admissions is the one from the "embed" path,
in either arrival order. -/
theorem embed_path_wins (tbl : Str → Option (Nat × Record)) (k : Str)
    (p1 : Str) (r1 : Record) (p2 : Str) (r2 : Record)
    (h0 : tbl k = none)
    (h1 : occursIn ("embed".toList) (lowerStr p1) = true)
    (h2 : occursIn ("embed".toList) (lowerStr p2) = false) :
    dedupStep (dedupStep tbl k (isEmbedScore p1, r1)) k (isEmbedScore p2, r2) k
      = some (isEmbedScore p1, r1)
    ∧ dedupStep (dedupStep tbl k (isEmbedScore p2, r2)) k (isEmbedScore p1, r1) k
      = some (isEmbedScore p1, r1) := by
  have e1 : isEmbedScore p1 = 1 := by
    unfold isEmbedScore
    rw [h1]
    simp
  have e2 : isEmbedScore p2 = 0 := by
    unfold isEmbedScore
    rw [h2]
    simp
  rw [e1, e2]
  constructor
  · exact dedupStep_some_ge _ k (1, r1) (0, r2)
      (dedupStep_none tbl k (1, r1) h0) (by omega)
  · exact dedupStep_some_lt _ k (0, r2) (1, r1)
      (dedupStep_none tbl k (0, r2) h0) (by omega)

/-- Witness for C1 at a concrete key, records and paths. -/
theorem embed_path_wins_case :
    dedupStep (dedupStep (fun _ => none) ("m".toList)
        (isEmbedScore ("runs/Embed/m".toList), recA)) ("m".toList)
        (isEmbedScore ("runs/base/m".toList), recB) ("m".toList)
      = some (isEmbedScore ("runs/Embed/m".toList), recA)
    ∧ dedupStep (dedupStep (fun _ => none) ("m".toList)
        (isEmbedScore ("runs/base/m".toList), recB)) ("m".toList)
        (isEmbedScore ("runs/Embed/m".toList), recA) ("m".toList)
      = some (isEmbedScore ("runs/Embed/m".toList), recA) :=
  embed_path_wins _ _ _ _ _ _ rfl (by decide) (by decide)

/-- Claim C2 (counterexample to the literal claim): for the raw name "ab_x",
which contains an underscore, the resolved organization is "Ab" — the
title-cased form — and not the raw substring "ab" before the first
underscore, so the organization clause of the claim is false. -/
theorem underscore_org_not_raw :
    hasChar '_' ("ab_x".toList) = true
    ∧ (resolve ("ab_x".toList)).organization
        ≠ (("ab_x".toList).takeWhile (fun a => a != '_'))
    ∧ (resolve ("ab_x".toList)).organization = ("Ab".toList) := by
  decide

/-- Claim C2 (amended): for every raw name containing an underscore, the
resolved displayName equals the remainder after the first underscore (the
later segments joined on the underscore), and the resolved organization is
obtained from the substring before the first underscore by the normalization
pipeline (placeholder fallback, hyphen-to-space replacement, title-casing,
canonical overrides) — rather than being that raw substring itself. -/
theorem underscore_split_resolved (s : Str) (h : hasChar '_' s = true) :
    (resolve s).organization
      = orgOverride (orgNormalize (orgFallback (s.takeWhile (fun a => a != '_')) s))
    ∧ (resolve s).displayName = (s.dropWhile (fun a => a != '_')).drop 1 := by
  have hb : orgBranch s
      = ((splitOnC '_' s).headD [],
         joinWith ('_' :: []) ((splitOnC '_' s).drop 1)) := by
    simp [orgBranch, h]
  constructor
  · simp only [resolve, resolveOrg, hb]
    rw [splitOnC_headD]
  · simp only [resolve, hb]
    rw [splitOnC_tail_join]

/-- Witness for the amended C2 at the raw name "a_b". -/
theorem underscore_split_resolved_case :
    (resolve ("a_b".toList)).organization
      = orgOverride (orgNormalize (orgFallback
          (("a_b".toList).takeWhile (fun a => a != '_')) ("a_b".toList)))
    ∧ (resolve ("a_b".toList)).displayName
      = (("a_b".toList).dropWhile (fun a => a != '_')).drop 1 :=
  underscore_split_resolved _ (by decide)

/-- Claim C3: resolving the raw name
"fine-tuned-meta-llama-meta-llama-3-8b-instruct" yields organization
"Meta Llama", family "Llama", parameter size "8B", and the instruct flag. -/
theorem resolve_finetuned_llama_example :
    (resolve ("fine-tuned-meta-llama-meta-llama-3-8b-instruct".toList)).organization
      = ("Meta Llama".toList)
    ∧ (resolve ("fine-tuned-meta-llama-meta-llama-3-8b-instruct".toList)).family
      = ("Llama".toList)
    ∧ (resolve ("fine-tuned-meta-llama-meta-llama-3-8b-instruct".toList)).parameterSize
      = ("8B".toList)
    ∧ (resolve ("fine-tuned-meta-llama-meta-llama-3-8b-instruct".toList)).isInstructTuned
      = true := by
  decide

/-- Claim C4 (counterexample to the literal claim): the raw name "_x" resolves
to an empty organization, so the claimed invariant fails. -/
theorem org_empty_example :
    (resolve ("_x".toList)).organization = ([] : Str) := by
  decide

/-- Claim C4 (amended): the resolved organization is non-empty for every raw
name whose first character is neither an underscore nor a hyphen.  (A name
beginning with an underscore has an empty segment before the first underscore,
and a keyword-free name beginning with a hyphen makes the placeholder fallback
take an empty token; both resolve to an empty organization.) -/
theorem org_nonempty_amended (s : Str)
    (h1 : s.head? ≠ some '_') (h2 : s.head? ≠ some '-') :
    (resolve s).organization ≠ ([] : Str) := by
  have hb := orgBranch_fst_ne_nil s h1
  have hf := orgFallback_ne_nil _ s hb h2
  have hn := orgNormalize_ne_nil _ hf
  have ho := orgOverride_ne_nil _ hn
  simpa [resolve, resolveOrg] using ho

/-- Witness for the amended C4 at the raw name "qwen". -/
theorem org_nonempty_amended_case :
    (resolve ("qwen".toList)).organization ≠ ([] : Str) :=
  org_nonempty_amended _ (by decide) (by decide)

/-- Claim C6: the first candidate admitted for a key is always stored, a later
candidate replaces the stored one exactly when its quality signal is strictly
greater, and on an equal or smaller signal the stored (earliest-seen)
candidate is kept. -/
theorem dedup_policy :
    (∀ (tbl : Str → Option (Nat × Record)) (k : Str) (c : Nat × Record),
      tbl k = none → dedupStep tbl k c k = some c)
    ∧ (∀ (tbl : Str → Option (Nat × Record)) (k : Str) (p c : Nat × Record),
      tbl k = some p → p.1 < c.1 → dedupStep tbl k c k = some c)
    ∧ (∀ (tbl : Str → Option (Nat × Record)) (k : Str) (p c : Nat × Record),
      tbl k = some p → ¬ p.1 < c.1 → dedupStep tbl k c k = some p) := by
  exact ⟨fun tbl k c h => dedupStep_none tbl k c h,
    fun tbl k p c h hlt => dedupStep_some_lt tbl k p c h hlt,
    fun tbl k p c h hge => dedupStep_some_ge tbl k p c h hge⟩

/-- Witness for C6 at a concrete table, key and candidates: unseen key is
stored; score 1 replaces score 0; score 0 does not replace score 0. -/
theorem dedup_policy_case :
    dedupStep (fun _ => none) ("m".toList) (0, recA) ("m".toList) = some (0, recA)
    ∧ dedupStep tblA ("m".toList) (1, recB) ("m".toList) = some (1, recB)
    ∧ dedupStep tblA ("m".toList) (0, recB) ("m".toList) = some (0, recA) :=
  ⟨dedup_policy.1 _ _ _ rfl,
   dedup_policy.2.1 _ _ (0, recA) _ rfl (by decide),
   dedup_policy.2.2 _ _ (0, recA) _ rfl (by decide)⟩

/-- Claim C7 (counterexample to the literal claim): for the raw name
"xllama_a" the organization string obtained after hyphen replacement and
title-casing is "Xllama", which contains "llama" case-insensitively, yet the
final resolved organization is "Xllama", not "Meta Llama" — the code's
containment test is case-sensitive. -/
theorem llama_insens_not_forced :
    occursIn (lowerStr ("llama".toList))
      (lowerStr (orgNormalize (orgFallback (orgBranch ("xllama_a".toList)).1
        ("xllama_a".toList)))) = true
    ∧ (resolve ("xllama_a".toList)).organization ≠ ("Meta Llama".toList) := by
  decide

/-- Claim C7 (amended): whenever the organization string obtained after hyphen
replacement and title-casing contains "Llama" as a case-sensitive substring,
the final resolved organization is exactly "Meta Llama". -/
theorem llama_override_amended (s : Str)
    (h : occursIn ("Llama".toList)
      (orgNormalize (orgFallback (orgBranch s).1 s)) = true) :
    (resolve s).organization = ("Meta Llama".toList) := by
  have hA : occursIn ("01 Ai".toList) ("Meta Llama".toList) = false := by decide
  have hQ : occursIn ("Qwen".toList) ("Meta Llama".toList) = false := by decide
  show orgOverride (orgNormalize (orgFallback (orgBranch s).1 s)) = ("Meta Llama".toList)
  simp only [orgOverride, h, Bool.or_true, eq_self_iff_true, if_true, hA, hQ,
    Bool.false_eq_true, if_false]

/-- Witness for the amended C7 at the raw name "llama_x". -/
theorem llama_override_amended_case :
    (resolve ("llama_x".toList)).organization = ("Meta Llama".toList) :=
  llama_override_amended _ (by decide)

/-- Claim C8: `extract_params` returns "Unknown" exactly when no digit of the
raw name is immediately followed by the letter B (either case); otherwise it
returns the numeric token (decimal allowed) found at the earliest position
where a numeric token is immediately followed by B, with a literal uppercase
"B" appended.  In particular the bare number "3" is not captured. -/
theorem extract_params_first_token :
    (∀ s : Str, extract_params s = ("Unknown".toList) ↔ hasDigitB s = false)
    ∧ (∀ s : Str, hasDigitB s = true →
        ∃ i t, specTokAt s i t ∧ extract_params s = t ++ ('B' :: [])
          ∧ ∀ j u, specTokAt s j u → i ≤ j)
    ∧ extract_params ("3".toList) = ("Unknown".toList) := by
  refine ⟨?_, ?_, by decide⟩
  · intro s
    constructor
    · intro h
      cases hm : searchB s with
      | none => exact (searchB_none_iff s).mp hm
      | some g =>
        exfalso
        have he : extract_params s = g ++ ('B' :: []) := by
          simp [extract_params, hm]
        rw [h] at he
        have h1 : (g ++ ('B' :: [])).getLast? = some 'B' := by
          simp [List.getLast?_concat]
        rw [← he] at h1
        have h2 : ("Unknown".toList).getLast? = some 'n' := by decide
        rw [h2] at h1
        exact absurd (Option.some.inj h1) (by decide)
    · intro h
      have hn : searchB s = none := (searchB_none_iff s).mpr h
      simp [extract_params, hn]
  · intro s h
    have hne : searchB s ≠ none := searchB_ne_none_of_hasDigitB s h
    cases hm : searchB s with
    | none => exact absurd hm hne
    | some g =>
      obtain ⟨i, hmi, hbefore⟩ := searchB_some_idx s g hm
      have hspec := (matchAt_some_iff (s.drop i) g).mp hmi
      refine ⟨i, g, ⟨hspec.1, hspec.2⟩, by simp [extract_params, hm], ?_⟩
      intro j u hju
      by_contra hlt
      push_neg at hlt
      have hmj : matchAt (s.drop j) = some u :=
        (matchAt_some_iff (s.drop j) u).mpr ⟨hju.1, hju.2⟩
      rw [hbefore j hlt] at hmj
      exact Option.noConfusion hmj

/-- Witness for C8 at the raw name "a7b": the token "7" at position 1 is
captured and "7B" returned. -/
theorem extract_params_first_token_case :
    hasDigitB ("a7b".toList) = true
    ∧ ∃ i t, specTokAt ("a7b".toList) i t
        ∧ extract_params ("a7b".toList) = t ++ ('B' :: [])
        ∧ ∀ j u, specTokAt ("a7b".toList) j u → i ≤ j :=
  ⟨by decide, extract_params_first_token.2.1 _ (by decide)⟩

/-- Claim C9: when fewer than 2 records are retained, the run fails with exit
code 1; the result does not depend on the embedding function (so the
embedding stage is never consulted) and no output document is produced. -/
theorem too_few_records_fatal (embed : List (List Rat) → List (Rat × Rat))
    (records : List Record) (h : records.length < 2) :
    runPipeline embed records = Except.error 1 := by
  simp [runPipeline, h]

/-- Witness for C9 with an empty record list. -/
theorem too_few_records_fatal_case :
    runPipeline (fun _ => []) [] = Except.error 1 :=
  too_few_records_fatal _ _ (by decide)

/-- Claim C10: for a raw name without an underscore that matches one of the
keywords qwen, mistral, 01-ai, google, microsoft (and does not match
meta-llama), the resolved display name is the raw name unchanged. -/
theorem keyword_display_name_unchanged (s : Str)
    (h1 : hasChar '_' s = false)
    (h2 : occursIn ("meta-llama".toList) (lowerStr s) = false)
    (h3 : (occursIn ("qwen".toList) (lowerStr s)
        || occursIn ("mistral".toList) (lowerStr s)
        || occursIn ("01-ai".toList) (lowerStr s)
        || occursIn ("google".toList) (lowerStr s)
        || occursIn ("microsoft".toList) (lowerStr s)) = true) :
    (resolve s).displayName = s := by
  simp only [resolve, orgBranch, h1, h2, Bool.false_eq_true, if_false]
  split_ifs <;> rfl

/-- Witness for C10 at the raw name "qwen2-7b". -/
theorem keyword_display_name_unchanged_case :
    (resolve ("qwen2-7b".toList)).displayName = ("qwen2-7b".toList) :=
  keyword_display_name_unchanged _ (by decide) (by decide) (by decide)

end DnaWeb
